import Mathlib

/-!
Verification of the Predict-X trading and valuation engine
(`src/server.js`) against its natural-language specification.

The engine is shallowly embedded: JavaScript numbers are modelled as `ℚ`
(the source only ever performs exact decimal arithmetic on the code paths
considered here), the in-memory `db` object becomes an explicit `St`
record that every operation takes and returns, and the HTTP handlers
`POST /api/trade`, `POST /api/sell`, the `updatePrices` timer body and
`GET /api/leaderboard` become the pure functions `buy`, `sell`,
`tickMarket` and `leaderboard`.  `Math.floor` is `Int.floor` and
`Math.round` is Mathlib's `round` (both agree with the JavaScript
functions on all rationals: `Math.round x = ⌊x + 1/2⌋`).

Fields of the source objects that no considered operation reads
(timestamps, password digests, e-mail addresses, category decoration,
`days`) are omitted.  `crypto.randomUUID()` is modelled by the fresh
counter `St.nextId`: freshness is the only property of the generated ids
the engine relies on.  The map `db.positions : userId → Position[]` is
stored as the `positions` field of the owning `User`, and users are
addressed by their index in `St.users` (authentication is an external
collaborator per the specification's scope).
-/

namespace PredictX

/-- A market row of `db.markets` (src/server.js, `generateMarkets`):
`yes`/`no` are the prices in integer cents, `vol` the cumulative volume,
`users` the participant counter, `history` the ring of recent `yes`
samples.  All numeric fields are JavaScript numbers, modelled as `ℚ`. -/
structure Market where
  title : String
  yes : ℚ
  no : ℚ
  vol : ℚ
  users : ℚ
  history : List ℚ
deriving Repr

/-- An open position (pushed by `POST /api/trade`): `id` is the UUID
(modelled as a fresh natural number), `title` the 40-character market
title snippet, `shares` and `avg` JavaScript numbers. -/
structure Position where
  id : ℕ
  marketId : ℕ
  title : String
  side : String
  shares : ℚ
  avg : ℚ
deriving Repr

/-- A user row of `db.users` together with their `db.positions` entry.
`balance` starts at 10000 on registration; `wins`/`losses` are the
cumulative outcome counters bumped by `POST /api/sell`. -/
structure User where
  username : String
  balance : ℚ
  wins : ℕ
  losses : ℕ
  positions : List Position
deriving Repr

/-- An immutable record appended to `db.trades` by `POST /api/trade`. -/
structure Trade where
  userId : ℕ
  marketId : ℕ
  side : String
  shares : ℤ
  price : ℚ
  amount : ℚ
deriving Repr

/-- The shared in-memory database `db` of src/server.js. -/
structure St where
  users : List User
  markets : List Market
  trades : List Trade
  nextId : ℕ
deriving Repr

/-- The error responses of the trade and sell routes. -/
inductive ApiError where
  | unauthorized
  | invalidSide
  | invalidAmount
  | marketNotFound
  | positionNotFound
  | internalError
deriving Repr, DecidableEq

/-- Response of `POST /api/trade`: on success the new balance and the
share count, otherwise the error. -/
inductive TradeResp where
  | ok (balance : ℚ) (shares : ℤ)
  | err (e : ApiError)
deriving Repr

/-- Response of `POST /api/sell`: on success the new balance and the
payout, otherwise the error. -/
inductive SellResp where
  | ok (balance : ℚ) (payout : ℚ)
  | err (e : ApiError)
deriving Repr

/-- The price read for a side: `side === "YES" ? market.yes : market.no`
(line 205 / line 256). -/
def readPrice (m : Market) (side : String) : ℚ :=
  if side = "YES" then m.yes else m.no

/-- The share computation `Math.floor(amount / (price / 100))` (line 206). -/
def mkShares (amount price : ℚ) : ℤ :=
  ⌊amount / (price / 100)⌋

/-- The predicate of `positions.find(p => p.marketId === marketId &&
p.side === side)` (line 213). -/
def posMatch (marketId : ℕ) (side : String) (p : Position) : Bool :=
  p.marketId == marketId && p.side == side

/-- Lines 215–229 of `POST /api/trade`: either merge the new fill into
the first existing position on the same `(marketId, side)` — the new
average cost is computed from the pre-update share count — or push a
fresh position at the end of the list. -/
def upsertPosition (marketId : ℕ) (side : String) (title : String)
    (price : ℚ) (shares : ℤ) (fresh : ℕ) :
    List Position → List Position
  | [] =>
      [{ id := fresh, marketId := marketId, title := title.take 40,
         side := side, shares := (shares : ℚ), avg := price }]
  | p :: ps =>
      if posMatch marketId side p then
        { p with
          avg := (p.avg * p.shares + price * (shares : ℚ)) /
            (p.shares + (shares : ℚ)),
          shares := p.shares + (shares : ℚ) } :: ps
      else
        p :: upsertPosition marketId side title price shares fresh ps

/-- The handler of `POST /api/trade` (lines 194–243).  Validation happens in source
order: side, then amount against the balance, then market existence;
each rejection returns the state untouched.  On acceptance the amount is
debited unconditionally, volume and participant count are bumped, the
position list is upserted and a trade record is appended. -/
def buy (st : St) (uid marketId : ℕ) (side : String) (amount : ℚ) :
    St × TradeResp :=
  match st.users[uid]? with
  | none => (st, .err .unauthorized)
  | some user =>
    if ¬(side = "YES" ∨ side = "NO") then (st, .err .invalidSide)
    else if amount ≤ 0 ∨ user.balance < amount then
      (st, .err .invalidAmount)
    else
      match st.markets[marketId]? with
      | none => (st, .err .marketNotFound)
      | some market =>
        let price := readPrice market side
        let shares := mkShares amount price
        let market' := { market with
          vol := market.vol + amount, users := market.users + 1 }
        let user' := { user with
          balance := user.balance - amount,
          positions := upsertPosition marketId side market.title price
            shares st.nextId user.positions }
        let trade : Trade :=
          { userId := uid, marketId := marketId, side := side,
            shares := shares, price := price, amount := amount }
        ({ st with
            users := st.users.set uid user',
            markets := st.markets.set marketId market',
            trades := st.trades ++ [trade],
            nextId := st.nextId + 1 },
         .ok user'.balance shares)

/-- The handler of `POST /api/sell` (lines 245–266): find the caller's position by id
(404 if absent), read the current side price, credit the payout, bump
exactly one of the win/loss counters (`currentPrice > pos.avg` wins,
anything else — equality included — loses) and splice the position out.
A dangling `pos.marketId` would crash the handler in the source (caught
as a 500 by the server wrapper, before any mutation); that branch is the
`internalError` case here. -/
def sell (st : St) (uid positionId : ℕ) : St × SellResp :=
  match st.users[uid]? with
  | none => (st, .err .unauthorized)
  | some user =>
    match user.positions.find? (fun p => p.id == positionId) with
    | none => (st, .err .positionNotFound)
    | some pos =>
      match st.markets[pos.marketId]? with
      | none => (st, .err .internalError)
      | some market =>
        let currentPrice := readPrice market pos.side
        let payout := pos.shares * (currentPrice / 100)
        let user' := { user with
          balance := user.balance + payout,
          wins := if currentPrice > pos.avg then user.wins + 1
            else user.wins,
          losses := if currentPrice > pos.avg then user.losses
            else user.losses + 1,
          positions :=
            user.positions.eraseP (fun p => p.id == positionId) }
        ({ st with users := st.users.set uid user' },
         .ok user'.balance payout)

/-- The per-market body of `updatePrices` (lines 102–111): perturb `yes`
by the tick's delta, round, clamp to `[1, 99]`, recompute `no` as the
complement and rotate the history ring.  The source draws `change`
uniformly from `(-1.5, 1.5)`; the definition takes it as a parameter. -/
def tickMarket (m : Market) (change : ℚ) : Market :=
  let yes' : ℤ := max 1 (min 99 (round (m.yes + change)))
  { m with
    yes := (yes' : ℚ),
    no := 100 - (yes' : ℚ),
    history := m.history.drop 1 ++ [(yes' : ℚ)] }

/-- A leaderboard entry (lines 270–283).  The source stores the
mark-to-market net worth in a field it also calls `balance`. -/
structure Entry where
  username : String
  balance : ℚ
  wins : ℕ
  winRate : ℚ
  rank : ℕ
deriving Repr

/-- The position-value accumulator of the leaderboard's `reduce`
(lines 273–276).  The source indexes `db.markets[p.marketId]` without a
check; positions only ever reference markets that exist (markets are
never deleted), so the impossible dangling branch contributes nothing. -/
def posValue (markets : List Market) (acc : ℚ) (p : Position) : ℚ :=
  match markets[p.marketId]? with
  | some m => acc + p.shares * ((if p.side = "YES" then m.yes else m.no) / 100)
  | none => acc

/-- Cash balance `u.balance` plus the mark-to-market value of the open positions —
the quantity the leaderboard sorts by. -/
def netWorth (st : St) (u : User) : ℚ :=
  u.balance + u.positions.foldl (posValue st.markets) 0

/-- Line 278, the win rate as a rounded integer percentage:
`u.wins + u.losses > 0 ? Math.round(u.wins / (u.wins + u.losses) * 100) : 0`. -/
def winRatePct (wins losses : ℕ) : ℚ :=
  if 0 < wins + losses then
    ((round (((wins : ℚ) / ((wins : ℚ) + (losses : ℚ))) * 100) : ℤ) : ℚ)
  else 0

/-- The entry built for one user (lines 271–279), before the rank is
attached. -/
def mkEntry (st : St) (u : User) : Entry :=
  { username := u.username, balance := netWorth st u, wins := u.wins,
    winRate := winRatePct u.wins u.losses, rank := 0 }

/-- The sort order of `.sort((a, b) => b.balance - a.balance)`:
descending net worth, ties left in place (JavaScript sort is stable). -/
def entryLe (a b : Entry) : Bool :=
  decide (b.balance ≤ a.balance)

/-- Rank annotation `.map((u, i) => ({ ...u, rank: i + 1 }))` (line 283). -/
def rankify : List Entry → ℕ → List Entry
  | [], _ => []
  | e :: es, i => { e with rank := i + 1 } :: rankify es (i + 1)

/-- The handler of `GET /api/leaderboard` (lines 269–284): build an entry per user,
sort by descending net worth, keep the first 100, attach 1-based
ranks. -/
def leaderboard (st : St) : List Entry :=
  rankify (((st.users.map (mkEntry st)).mergeSort entryLe).take 100) 0

/-- The route handler takes no parameter at all in the source
(`() => …` on the leaderboard route); any `limit` query parameter a
caller supplies is never read. -/
def leaderboardRoute (st : St) (_limitParam : Option ℕ) : List Entry :=
  leaderboard st

/-- The net effect on one market of the price process running between
two requests: `updatePrices` rewrites `yes` and keeps `no = 100 − yes`
(lines 105–106).  History rotation is irrelevant to trading and omitted
here; this is used to stage scenarios in which the price moves between
two trades. -/
def setYes (st : St) (mid : ℕ) (y : ℚ) : St :=
  match st.markets[mid]? with
  | some m =>
      { st with markets := st.markets.set mid { m with yes := y, no := 100 - y } }
  | none => st

/-! Invariants -/

/-- Every open position's share count is a natural number.  Shares are
stored as JavaScript numbers, so this is a property, not a typing
artifact. -/
def NatShares (st : St) : Prop :=
  ∀ u ∈ st.users, ∀ p ∈ u.positions, ∃ n : ℕ, p.shares = (n : ℚ)

/-- Every market's prices are in range and complementary, as
`generateMarkets` establishes and `updatePrices` maintains. -/
def ValidPrices (st : St) : Prop :=
  ∀ m ∈ st.markets, 1 ≤ m.yes ∧ m.yes ≤ 99 ∧ m.no = 100 - m.yes

/-! Non-numeric request amounts.

JSON request bodies are not guaranteed to carry a numeric `amount`: a
body that simply omits the field delivers `undefined` to the handler,
which behaves as NaN in every comparison and arithmetic operation.
`JsNum` refines the numeric model for that case: `some q` is the number
`q`, `none` is NaN (or `undefined`, which coerces to NaN). -/

abbrev JsNum := Option ℚ

/-- JavaScript `<=`: any comparison against NaN is false. -/
def jsLe (a b : JsNum) : Bool :=
  match a, b with
  | some x, some y => decide (x ≤ y)
  | _, _ => false

/-- JavaScript `>`: any comparison against NaN is false. -/
def jsGt (a b : JsNum) : Bool :=
  match a, b with
  | some x, some y => decide (y < x)
  | _, _ => false

/-- JavaScript subtraction: NaN propagates. -/
def jsSub (a b : JsNum) : JsNum :=
  match a, b with
  | some x, some y => some (x - y)
  | _, _ => none

/-- JavaScript division: NaN propagates (the divisor is always a
nonzero price here, so the infinity cases do not arise). -/
def jsDiv (a b : JsNum) : JsNum :=
  match a, b with
  | some x, some y => some (x / y)
  | _, _ => none

/-- JavaScript `Math.floor`: NaN propagates. -/
def jsFloor (a : JsNum) : JsNum :=
  a.map (fun x => ((⌊x⌋ : ℤ) : ℚ))

/-- The numeric core of `POST /api/trade` (lines 199–208) with the
request `amount` taken as a raw JSON value: validation, price read,
balance debit and share computation, returning `none` on rejection and
`some (newBalance, shares)` on acceptance.  `marketYes` lists the `yes`
prices of `db.markets`. -/
def tradeRouteJs (balance : JsNum) (marketYes : List ℚ) (marketId : ℕ)
    (side : String) (amount : JsNum) : Option (JsNum × JsNum) :=
  if ¬(side = "YES" ∨ side = "NO") then none
  else if jsLe amount (some 0) || jsGt amount balance then none
  else
    match marketYes[marketId]? with
    | none => none
    | some yes =>
      let price := if side = "YES" then yes else 100 - yes
      some (jsSub balance amount, jsFloor (jsDiv amount (some (price / 100))))

/-! Concrete scenario states -/

/-- A freshly registered user (balance 10000) with the given counters
and positions. -/
def mkUserW (bal : ℚ) (w l : ℕ) (ps : List Position) : User :=
  { username := "u", balance := bal, wins := w, losses := l, positions := ps }

/-- A market holding the given `yes` price. -/
def mkMarketW (y : ℚ) : Market :=
  { title := "t", yes := y, no := 100 - y, vol := 0, users := 0, history := [] }

/-- One fresh user, one market at 40¢ YES — the specification's worked
example. -/
def stBuy : St :=
  { users := [mkUserW 10000 0 0 []], markets := [mkMarketW 40],
    trades := [], nextId := 0 }

/-- One fresh user, one market at 99¢ YES: a tiny spend truncates to
zero shares here. -/
def stDust : St :=
  { users := [mkUserW 10000 0 0 []], markets := [mkMarketW 99],
    trades := [], nextId := 1 }

/-- The specification's worked example mid-flight: 50 YES shares bought
at 40¢, the market has since moved to 60¢. -/
def stSell : St :=
  { users := [mkUserW 9980 0 0
      [{ id := 7, marketId := 0, title := "t", side := "YES",
         shares := 50, avg := 40 }]],
    markets := [mkMarketW 60], trades := [], nextId := 8 }

/-- One user with one win and one loss, for the leaderboard. -/
def stRate : St :=
  { users := [mkUserW 10000 1 1 []], markets := [mkMarketW 40],
    trades := [], nextId := 0 }

/-- The two-buy scenario of the cost-basis claims: a fresh user with
balance `bal` and a single market at `y`¢ YES. -/
def c4st (bal y : ℚ) : St :=
  { users := [mkUserW bal 0 0 []], markets := [mkMarketW y],
    trades := [], nextId := 0 }

/-! Helper lemmas -/

theorem getElem?_some_lt {α : Type _} {l : List α} {i : ℕ} {a : α}
    (h : l[i]? = some a) : i < l.length := by
  rcases List.getElem?_eq_some.mp h with ⟨hlt, -⟩
  exact hlt

theorem getElem?_set_self {α : Type _} {l : List α} {i : ℕ} {a b : α}
    (h : l[i]? = some a) : (l.set i b)[i]? = some b := by
  simp [List.getElem?_set, getElem?_some_lt h]

/-- Shape of an accepted `buy`: with the user found, a valid side, a
valid amount and an existing market, the call returns the fully updated
state and the success response. -/
theorem buy_accept (st : St) (uid mid : ℕ) (side : String) (amount : ℚ)
    (user : User) (market : Market)
    (hu : st.users[uid]? = some user)
    (hs : side = "YES" ∨ side = "NO")
    (h0 : 0 < amount) (hb : amount ≤ user.balance)
    (hm : st.markets[mid]? = some market) :
    buy st uid mid side amount =
      ({ st with
          users := st.users.set uid { user with
            balance := user.balance - amount,
            positions := upsertPosition mid side market.title
              (readPrice market side)
              (mkShares amount (readPrice market side)) st.nextId
              user.positions },
          markets := st.markets.set mid { market with
            vol := market.vol + amount, users := market.users + 1 },
          trades := st.trades ++
            [{ userId := uid, marketId := mid, side := side,
               shares := mkShares amount (readPrice market side),
               price := readPrice market side, amount := amount }],
          nextId := st.nextId + 1 },
       .ok (user.balance - amount) (mkShares amount (readPrice market side))) := by
  have hside : ¬¬(side = "YES" ∨ side = "NO") := not_not_intro hs
  have hamt : ¬(amount ≤ 0 ∨ user.balance < amount) := by
    push_neg
    exact ⟨h0, hb⟩
  simp only [buy, hu, hm, if_neg hside, if_neg hamt]

/-- Shape of a successful `sell`: with the position found and its market
present, the call credits the payout, classifies the outcome and erases
the position. -/
theorem sell_accept (st : St) (uid pid : ℕ)
    (user : User) (pos : Position) (market : Market)
    (hu : st.users[uid]? = some user)
    (hp : user.positions.find? (fun p => p.id == pid) = some pos)
    (hm : st.markets[pos.marketId]? = some market) :
    sell st uid pid =
      ({ st with
          users := st.users.set uid { user with
            balance := user.balance +
              pos.shares * (readPrice market pos.side / 100),
            wins := if readPrice market pos.side > pos.avg then
              user.wins + 1 else user.wins,
            losses := if readPrice market pos.side > pos.avg then
              user.losses else user.losses + 1,
            positions := user.positions.eraseP (fun p => p.id == pid) } },
       .ok (user.balance + pos.shares * (readPrice market pos.side / 100))
         (pos.shares * (readPrice market pos.side / 100))) := by
  simp only [sell, hu, hp, hm]

/-- After erasing the (unique) element keyed `k`, no element with key
`k` remains. -/
theorem not_mem_eraseP_key {α β : Type _} [DecidableEq β] (f : α → β) (k : β) :
    ∀ l : List α, (l.map f).Nodup →
      ∀ q ∈ l.eraseP (fun x => f x == k), f q ≠ k
  | [], _, q, hq => by simp [List.eraseP] at hq
  | p :: ps, hnd, q, hq => by
    rw [List.map_cons, List.nodup_cons] at hnd
    by_cases hpk : (f p == k) = true
    · have he : List.eraseP (fun x => f x == k) (p :: ps) = ps :=
        List.eraseP_cons_of_pos hpk
      rw [he] at hq
      intro hqk
      have hmem : f q ∈ ps.map f := List.mem_map_of_mem f hq
      rw [hqk, ← eq_of_beq hpk] at hmem
      exact hnd.1 hmem
    · have he : List.eraseP (fun x => f x == k) (p :: ps) =
          p :: List.eraseP (fun x => f x == k) ps :=
        List.eraseP_cons_of_neg hpk
      rw [he] at hq
      rcases List.mem_cons.mp hq with h | h
      · subst h
        exact fun hc => hpk (beq_iff_eq.mpr hc)
      · exact not_mem_eraseP_key f k ps hnd.2 q h

/-! The claims -/

/-- Claim C1: every Buy accepted by validation (side in YES/NO,
0 < amount ≤ balance, market exists) debits exactly `amount` from the
balance and grants `floor(amount / (price/100))` shares at the price
read for that side at execution; a truncation to 0 shares is still
accepted and still debited in full (no hypothesis below excludes it,
and the witness exercises it). -/
theorem buy_valid_debits_balance (st : St) (uid mid : ℕ) (side : String)
    (amount : ℚ) (user : User) (market : Market)
    (hu : st.users[uid]? = some user)
    (hs : side = "YES" ∨ side = "NO")
    (h0 : 0 < amount) (hb : amount ≤ user.balance)
    (hm : st.markets[mid]? = some market) :
    (buy st uid mid side amount).2 =
      .ok (user.balance - amount)
        ⌊amount / (readPrice market side / 100)⌋ ∧
    ∃ user', (buy st uid mid side amount).1.users[uid]? = some user' ∧
      user'.balance = user.balance - amount := by
  rw [buy_accept st uid mid side amount user market hu hs h0 hb hm]
  exact ⟨rfl, _, getElem?_set_self hu, rfl⟩

theorem buy_valid_debits_balance_witness :
    ((buy stBuy 0 0 "YES" 20).2 = .ok 9980 50 ∧
      ∃ user', (buy stBuy 0 0 "YES" 20).1.users[0]? = some user' ∧
        user'.balance = 9980) ∧
    (buy stDust 0 0 "YES" (1/2)).2 = .ok (19999/2) 0 := by
  obtain ⟨h1, user', h2, h3⟩ :=
    buy_valid_debits_balance stBuy 0 0 "YES" 20 (mkUserW 10000 0 0 [])
      (mkMarketW 40) rfl (Or.inl rfl) (by norm_num)
      (by norm_num [mkUserW]) rfl
  obtain ⟨h4, -⟩ :=
    buy_valid_debits_balance stDust 0 0 "YES" (1/2) (mkUserW 10000 0 0 [])
      (mkMarketW 99) rfl (Or.inl rfl) (by norm_num)
      (by norm_num [mkUserW]) rfl
  refine ⟨⟨?_, user', h2, ?_⟩, ?_⟩
  · rw [h1]
    norm_num [readPrice, mkMarketW, mkUserW]
  · rw [h3]; norm_num [mkUserW]
  · rw [h4]
    norm_num [readPrice, mkMarketW, mkUserW]

/-- Claim C7: a Buy rejected for an invalid side, a non-positive or
over-balance amount, or a nonexistent market returns an error and
leaves the whole state — balances, positions, market volume and
participant count, trade log — exactly as it was. -/
theorem buy_reject_no_mutation (st : St) (uid mid : ℕ) (side : String)
    (amount : ℚ) (user : User)
    (hu : st.users[uid]? = some user)
    (hbad : ¬(side = "YES" ∨ side = "NO") ∨ amount ≤ 0 ∨
      user.balance < amount ∨ st.markets[mid]? = none) :
    (buy st uid mid side amount).1 = st ∧
    ∃ e, (buy st uid mid side amount).2 = .err e := by
  by_cases hside : ¬(side = "YES" ∨ side = "NO")
  · refine ⟨?_, .invalidSide, ?_⟩ <;> simp only [buy, hu, if_pos hside]
  · by_cases hamt : amount ≤ 0 ∨ user.balance < amount
    · refine ⟨?_, .invalidAmount, ?_⟩ <;>
        simp only [buy, hu, if_neg hside, if_pos hamt]
    · have hmn : st.markets[mid]? = none := by
        rcases hbad with h | h | h | h
        · exact absurd h hside
        · exact absurd (Or.inl h) hamt
        · exact absurd (Or.inr h) hamt
        · exact h
      refine ⟨?_, .marketNotFound, ?_⟩ <;>
        simp only [buy, hu, if_neg hside, if_neg hamt, hmn]

theorem buy_reject_no_mutation_witness :
    (buy stBuy 0 0 "YES" (-5)).1 = stBuy ∧
    ∃ e, (buy stBuy 0 0 "YES" (-5)).2 = .err e :=
  buy_reject_no_mutation stBuy 0 0 "YES" (-5) (mkUserW 10000 0 0 []) rfl
    (Or.inr (Or.inl (by norm_num)))

/-- Claim C2: a Sell of an owned open position with `s` shares at
current side price `p` pays out exactly `s * p / 100`, credits it to
the balance, and removes the position from the user's open set
entirely (full close; no position with that id remains). -/
theorem sell_full_close (st : St) (uid pid : ℕ)
    (user : User) (pos : Position) (market : Market)
    (hu : st.users[uid]? = some user)
    (hp : user.positions.find? (fun p => p.id == pid) = some pos)
    (hm : st.markets[pos.marketId]? = some market)
    (hnd : (user.positions.map Position.id).Nodup) :
    (sell st uid pid).2 =
      .ok (user.balance + pos.shares * (readPrice market pos.side / 100))
        (pos.shares * (readPrice market pos.side / 100)) ∧
    ∃ user', (sell st uid pid).1.users[uid]? = some user' ∧
      user'.balance =
        user.balance + pos.shares * (readPrice market pos.side / 100) ∧
      ∀ q ∈ user'.positions, q.id ≠ pid := by
  rw [sell_accept st uid pid user pos market hu hp hm]
  refine ⟨rfl, _, getElem?_set_self hu, rfl, ?_⟩
  intro q hq
  exact not_mem_eraseP_key Position.id pid user.positions hnd q hq

theorem sell_full_close_witness :
    (sell stSell 0 7).2 = .ok 10010 30 ∧
    ∃ user', (sell stSell 0 7).1.users[0]? = some user' ∧
      user'.balance = 10010 ∧ ∀ q ∈ user'.positions, q.id ≠ 7 := by
  obtain ⟨h1, user', h2, h3, h4⟩ :=
    sell_full_close stSell 0 7 (mkUserW 9980 0 0
        [{ id := 7, marketId := 0, title := "t", side := "YES",
           shares := 50, avg := 40 }])
      { id := 7, marketId := 0, title := "t", side := "YES",
        shares := 50, avg := 40 }
      (mkMarketW 60) rfl (by simp [mkUserW, List.find?]) rfl
      (by simp [mkUserW])
  refine ⟨?_, user', h2, ?_, h4⟩
  · rw [h1]; norm_num [readPrice, mkMarketW, mkUserW]
  · rw [h3]; norm_num [mkUserW, readPrice, mkMarketW]

/-- Claim C8: every successful Sell increments exactly one of the
win/loss counters; `wins` is incremented iff the current side price is
strictly greater than the position's average cost, and `losses`
otherwise — so selling exactly at cost counts as a loss. -/
theorem sell_win_loss_classification (st : St) (uid pid : ℕ)
    (user : User) (pos : Position) (market : Market)
    (hu : st.users[uid]? = some user)
    (hp : user.positions.find? (fun p => p.id == pid) = some pos)
    (hm : st.markets[pos.marketId]? = some market) :
    ∃ user', (sell st uid pid).1.users[uid]? = some user' ∧
      user'.wins + user'.losses = user.wins + user.losses + 1 ∧
      (pos.avg < readPrice market pos.side →
        user'.wins = user.wins + 1 ∧ user'.losses = user.losses) ∧
      (readPrice market pos.side ≤ pos.avg →
        user'.wins = user.wins ∧ user'.losses = user.losses + 1) := by
  rw [sell_accept st uid pid user pos market hu hp hm]
  refine ⟨_, getElem?_set_self hu, ?_, ?_, ?_⟩
  · by_cases h : readPrice market pos.side > pos.avg <;> simp [h] <;> omega
  · intro h
    simp [gt_iff_lt, if_pos h]
  · intro h
    simp [gt_iff_lt, if_neg (not_lt.mpr h)]

theorem sell_win_loss_classification_witness :
    ∃ user', (sell stSell 0 7).1.users[0]? = some user' ∧
      user'.wins + user'.losses = 0 + 0 + 1 ∧
      user'.wins = 0 + 1 ∧ user'.losses = 0 := by
  obtain ⟨user', h2, h3, h4, -⟩ :=
    sell_win_loss_classification stSell 0 7 (mkUserW 9980 0 0
        [{ id := 7, marketId := 0, title := "t", side := "YES",
           shares := 50, avg := 40 }])
      { id := 7, marketId := 0, title := "t", side := "YES",
        shares := 50, avg := 40 }
      (mkMarketW 60) rfl (by simp [mkUserW, List.find?]) rfl
  obtain ⟨hw, hl⟩ := h4 (by norm_num [readPrice, mkMarketW])
  exact ⟨user', h2, by simpa [mkUserW] using h3, by simpa [mkUserW] using hw,
    by simpa [mkUserW] using hl⟩

theorem mem_of_getElem?_eq {α : Type _} {l : List α} {i : ℕ} {a : α}
    (h : l[i]? = some a) : a ∈ l := by
  rcases List.getElem?_eq_some.mp h with ⟨hlt, rfl⟩
  exact List.getElem_mem hlt

/-- Claim C6: starting from a market with `yesPrice` in [1, 99] and the
complement invariant, after any number of price-process ticks with
arbitrary deltas the `yesPrice` stays in [1, 99] and `noPrice` is the
exact complement (`noPrice + yesPrice = 100`). -/
theorem tick_price_bounds (m : Market) (cs : List ℚ)
    (h1 : 1 ≤ m.yes) (h2 : m.yes ≤ 99) (hno : m.no = 100 - m.yes) :
    1 ≤ (cs.foldl tickMarket m).yes ∧ (cs.foldl tickMarket m).yes ≤ 99 ∧
    (cs.foldl tickMarket m).no + (cs.foldl tickMarket m).yes = 100 := by
  induction cs generalizing m with
  | nil =>
    simp only [List.foldl_nil]
    exact ⟨h1, h2, by rw [hno]; ring⟩
  | cons c cs ih =>
    simp only [List.foldl_cons]
    have hy : (tickMarket m c).yes =
        ((max 1 (min 99 (round (m.yes + c))) : ℤ) : ℚ) := rfl
    have hn : (tickMarket m c).no =
        100 - ((max 1 (min 99 (round (m.yes + c))) : ℤ) : ℚ) := rfl
    apply ih
    · rw [hy]
      have h : (1 : ℤ) ≤ max 1 (min 99 (round (m.yes + c))) := le_max_left _ _
      exact_mod_cast h
    · rw [hy]
      have h : max 1 (min 99 (round (m.yes + c))) ≤ (99 : ℤ) := by
        apply max_le
        · norm_num
        · exact min_le_left _ _
      exact_mod_cast h
    · rw [hy, hn]

theorem tick_price_bounds_witness :
    1 ≤ (([(7 : ℚ)/10, -2].foldl tickMarket (mkMarketW 40)).yes) ∧
    (([(7 : ℚ)/10, -2].foldl tickMarket (mkMarketW 40)).yes) ≤ 99 ∧
    (([(7 : ℚ)/10, -2].foldl tickMarket (mkMarketW 40)).no) +
      (([(7 : ℚ)/10, -2].foldl tickMarket (mkMarketW 40)).yes) = 100 :=
  tick_price_bounds (mkMarketW 40) [7/10, -2] (by norm_num [mkMarketW])
    (by norm_num [mkMarketW]) (by norm_num [mkMarketW])

/-- Claim C3, exhibiting the code bug: a trade request whose JSON body
omits `amount` (so the handler sees `undefined`, which compares as NaN)
passes the `amount <= 0 || amount > balance` check, is accepted, and
leaves the user's balance NaN — not a rational ≥ 0.  The claim that the
balance is non-negative for every input reaching the public trade
interface therefore fails on the code, while the specification requires
such a request to be rejected before any mutation. -/
theorem trade_undefined_amount_nan_balance :
    tradeRouteJs (some 10000) [50] 0 "YES" none = some (none, none) ∧
    ∀ q : ℚ, 0 ≤ q →
      (tradeRouteJs (some 10000) [50] 0 "YES" none).map Prod.fst ≠
        some (some q) := by
  refine ⟨rfl, ?_⟩
  intro q _ h
  rw [show tradeRouteJs (some 10000) [50] 0 "YES" none = some (none, none)
    from rfl] at h
  simp at h

/-- Claim C5, counterexample to strict positivity: a dust Buy (amount
1/2 at price 99) is accepted and creates an open position whose share
count is 0, so not every open position has `shares > 0`. -/
theorem dust_trade_zero_share_position :
    ∃ user, (buy stDust 0 0 "YES" (1/2)).1.users[0]? = some user ∧
      ∃ p ∈ user.positions, p.shares = 0 := by
  have h := buy_accept stDust 0 0 "YES" (1/2) (mkUserW 10000 0 0 [])
    (mkMarketW 99) rfl (Or.inl rfl) (by norm_num) (by norm_num [mkUserW]) rfl
  rw [h]
  refine ⟨_, rfl, ?_⟩
  norm_num [upsertPosition, mkUserW, mkShares, readPrice, mkMarketW]

theorem upsert_natShares (mid : ℕ) (side title : String) (price : ℚ)
    (s : ℤ) (fresh : ℕ) (hs : 0 ≤ s) :
    ∀ ps : List Position, (∀ p ∈ ps, ∃ n : ℕ, p.shares = (n : ℚ)) →
      ∀ p ∈ upsertPosition mid side title price s fresh ps,
        ∃ n : ℕ, p.shares = (n : ℚ)
  | [], _, p, hp => by
    simp only [upsertPosition, List.mem_singleton] at hp
    subst hp
    have hcast : ((s.toNat : ℚ)) = (s : ℚ) := by
      exact_mod_cast Int.toNat_of_nonneg hs
    exact ⟨s.toNat, hcast.symm⟩
  | q :: ps, hall, p, hp => by
    by_cases hm : posMatch mid side q
    · simp only [upsertPosition, if_pos hm] at hp
      rcases List.mem_cons.mp hp with h | h
      · obtain ⟨n, hn⟩ := hall q (List.mem_cons_self q ps)
        subst h
        have hcast : ((s.toNat : ℚ)) = (s : ℚ) := by
          exact_mod_cast Int.toNat_of_nonneg hs
        refine ⟨n + s.toNat, ?_⟩
        show q.shares + (s : ℚ) = ((n + s.toNat : ℕ) : ℚ)
        rw [hn]
        push_cast
        rw [hcast]
      · exact hall p (List.mem_cons_of_mem q h)
    · simp only [upsertPosition, if_neg hm] at hp
      rcases List.mem_cons.mp hp with h | h
      · subst h
        exact hall p (List.mem_cons_self p ps)
      · exact upsert_natShares mid side title price s fresh hs ps
          (fun r hr => hall r (List.mem_cons_of_mem q hr)) p h

/-- Claim C5 as amended: every open position's share count is a
non-negative integer (a natural number) — positive cannot hold, because
accepted dust trades create 0-share positions.  Buy (under the market
price invariant) and Sell both preserve the property. -/
theorem shares_nonneg_integer :
    (∀ st uid mid side amount, ValidPrices st → NatShares st →
      NatShares (buy st uid mid side amount).1) ∧
    (∀ st uid pid, NatShares st → NatShares (sell st uid pid).1) := by
  constructor
  · intro st uid mid side amount hvp hns
    cases hu : st.users[uid]? with
    | none =>
      simp only [buy, hu]
      exact hns
    | some user =>
      by_cases hside : ¬(side = "YES" ∨ side = "NO")
      · simp only [buy, hu, if_pos hside]
        exact hns
      · by_cases hamt : amount ≤ 0 ∨ user.balance < amount
        · simp only [buy, hu, if_neg hside, if_pos hamt]
          exact hns
        · cases hm : st.markets[mid]? with
          | none =>
            simp only [buy, hu, if_neg hside, if_neg hamt, hm]
            exact hns
          | some market =>
            push_neg at hamt
            rw [buy_accept st uid mid side amount user market hu
              (not_not.mp hside) hamt.1 hamt.2 hm]
            intro u hu' p hp
            rcases List.mem_or_eq_of_mem_set hu' with h | h
            · exact hns u h p hp
            · subst h
              have hprice : 0 < readPrice market side := by
                obtain ⟨hy1, hy2, hcomp⟩ := hvp market (mem_of_getElem?_eq hm)
                unfold readPrice
                split
                · linarith
                · rw [hcomp]; linarith
              have hs : 0 ≤ mkShares amount (readPrice market side) := by
                apply Int.floor_nonneg.mpr
                apply div_nonneg (le_of_lt hamt.1)
                positivity
              exact upsert_natShares mid side market.title
                (readPrice market side)
                (mkShares amount (readPrice market side)) st.nextId hs
                user.positions
                (fun r hr => hns user (mem_of_getElem?_eq hu) r hr) p hp
  · intro st uid pid hns
    cases hu : st.users[uid]? with
    | none =>
      simp only [sell, hu]
      exact hns
    | some user =>
      cases hp : user.positions.find? (fun p => p.id == pid) with
      | none =>
        simp only [sell, hu, hp]
        exact hns
      | some pos =>
        cases hm : st.markets[pos.marketId]? with
        | none =>
          simp only [sell, hu, hp, hm]
          exact hns
        | some market =>
          rw [sell_accept st uid pid user pos market hu hp hm]
          intro u hu' p hpp
          rcases List.mem_or_eq_of_mem_set hu' with h | h
          · exact hns u h p hpp
          · subst h
            exact hns user (mem_of_getElem?_eq hu) p
              ((List.eraseP_sublist user.positions).mem hpp)

theorem shares_nonneg_integer_witness :
    NatShares (buy stBuy 0 0 "YES" 20).1 :=
  shares_nonneg_integer.1 stBuy 0 0 "YES" 20
    (by
      intro m hm
      simp only [stBuy, List.mem_singleton] at hm
      subst hm
      norm_num [mkMarketW])
    (by
      intro u hu p hp
      simp only [stBuy, List.mem_singleton] at hu
      subst hu
      simp [mkUserW] at hp)

set_option maxRecDepth 8000 in
theorem c4_avg (bal a b u v : ℚ) (side : String)
    (hs : side = "YES" ∨ side = "NO")
    (ha : 0 < a) (hb : 0 < b) (hbal : a + b ≤ bal) :
    ∃ w, (buy (setYes (buy (c4st bal u) 0 0 side a).1 0 v) 0 0 side b).1.users[0]? =
        some w ∧
      w.positions.map Position.avg =
        [(readPrice (mkMarketW u) side * (mkShares a (readPrice (mkMarketW u) side) : ℚ) +
          readPrice (mkMarketW v) side * (mkShares b (readPrice (mkMarketW v) side) : ℚ)) /
          ((mkShares a (readPrice (mkMarketW u) side) : ℚ) +
            (mkShares b (readPrice (mkMarketW v) side) : ℚ))] := by
  have hbal₁ : a ≤ (mkUserW bal 0 0 []).balance := by
    simp only [mkUserW]; linarith
  have hA1 := buy_accept (c4st bal u) 0 0 side a (mkUserW bal 0 0 [])
    (mkMarketW u) rfl hs ha hbal₁ rfl
  rw [hA1]
  rcases hs with hside | hside <;> subst hside
  · have hcond : ¬(b ≤ 0 ∨ bal - a < b) := by
      push_neg
      exact ⟨hb, by linarith⟩
    simp only [c4st, mkUserW, mkMarketW, readPrice, mkShares, upsertPosition,
      setYes, List.set_cons_zero, List.getElem?_cons_zero, if_true, ite_true,
      zero_add, List.nil_append, buy, true_or, or_true, not_true, if_false,
      ite_false, hcond, posMatch, List.map_cons, List.map_nil,
      beq_self_eq_true, Bool.and_self, eq_self_iff_true]
    exact ⟨_, rfl, rfl⟩
  · have hcond : ¬(b ≤ 0 ∨ bal - a < b) := by
      push_neg
      exact ⟨hb, by linarith⟩
    simp only [c4st, mkUserW, mkMarketW, readPrice, mkShares, upsertPosition,
      setYes, List.set_cons_zero, List.getElem?_cons_zero, if_true, ite_true,
      zero_add, List.nil_append, buy, true_or, or_true, not_true, if_false,
      ite_false, hcond, posMatch, List.map_cons, List.map_nil,
      beq_self_eq_true, Bool.and_self, eq_self_iff_true]
    exact ⟨_, rfl, rfl⟩

/-- Claim C4: merging two Buys by the same user on the same
(market, side) yields an average cost equal to the share-weighted
average of the two fill prices, and the result is the same when the two
fills — each amount together with the price at which it executes — are
performed in the opposite order (commutativity of the weighted
average). -/
theorem merge_weighted_avg_commutes (bal a₁ a₂ y₁ y₂ : ℚ) (side : String)
    (hs : side = "YES" ∨ side = "NO")
    (h₁ : 0 < a₁) (h₂ : 0 < a₂) (hbal : a₁ + a₂ ≤ bal)
    (hy₁ : 1 ≤ y₁) (hy₁' : y₁ ≤ 99) (hy₂ : 1 ≤ y₂) (hy₂' : y₂ ≤ 99) :
    ∃ uA uB,
      (buy (setYes (buy (c4st bal y₁) 0 0 side a₁).1 0 y₂) 0 0 side
        a₂).1.users[0]? = some uA ∧
      (buy (setYes (buy (c4st bal y₂) 0 0 side a₂).1 0 y₁) 0 0 side
        a₁).1.users[0]? = some uB ∧
      uA.positions.map Position.avg =
        [(readPrice (mkMarketW y₁) side *
            (mkShares a₁ (readPrice (mkMarketW y₁) side) : ℚ) +
          readPrice (mkMarketW y₂) side *
            (mkShares a₂ (readPrice (mkMarketW y₂) side) : ℚ)) /
          ((mkShares a₁ (readPrice (mkMarketW y₁) side) : ℚ) +
            (mkShares a₂ (readPrice (mkMarketW y₂) side) : ℚ))] ∧
      uB.positions.map Position.avg = uA.positions.map Position.avg := by
  obtain ⟨uA, hA, hAavg⟩ := c4_avg bal a₁ a₂ y₁ y₂ side hs h₁ h₂ hbal
  obtain ⟨uB, hB, hBavg⟩ :=
    c4_avg bal a₂ a₁ y₂ y₁ side hs h₂ h₁ (by linarith)
  refine ⟨uA, uB, hA, hB, hAavg, ?_⟩
  rw [hBavg, hAavg]
  simp only [List.cons.injEq, and_true]
  ring

theorem merge_weighted_avg_commutes_witness :
    ∃ uA uB,
      (buy (setYes (buy (c4st 10000 50) 0 0 "YES" 10).1 0 25) 0 0 "YES"
        20).1.users[0]? = some uA ∧
      (buy (setYes (buy (c4st 10000 25) 0 0 "YES" 20).1 0 50) 0 0 "YES"
        10).1.users[0]? = some uB ∧
      uA.positions.map Position.avg = [30] ∧
      uB.positions.map Position.avg = [30] := by
  obtain ⟨uA, uB, hA, hB, hAavg, hBeq⟩ :=
    merge_weighted_avg_commutes 10000 10 20 50 25 "YES" (Or.inl rfl)
      (by norm_num) (by norm_num) (by norm_num) (by norm_num) (by norm_num)
      (by norm_num) (by norm_num)
  have h30 :
      (readPrice (mkMarketW 50) "YES" *
          (mkShares 10 (readPrice (mkMarketW 50) "YES") : ℚ) +
        readPrice (mkMarketW 25) "YES" *
          (mkShares 20 (readPrice (mkMarketW 25) "YES") : ℚ)) /
        ((mkShares 10 (readPrice (mkMarketW 50) "YES") : ℚ) +
          (mkShares 20 (readPrice (mkMarketW 25) "YES") : ℚ)) = 30 := by
    norm_num [readPrice, mkMarketW, mkShares]
  rw [h30] at hAavg
  exact ⟨uA, uB, hA, hB, hAavg, hBeq.trans hAavg⟩

theorem entryLe_trans : ∀ x y z : Entry,
    entryLe x y = true → entryLe y z = true → entryLe x z = true := by
  intro x y z hxy hyz
  rw [entryLe, decide_eq_true_iff] at *
  exact le_trans hyz hxy

theorem entryLe_total : ∀ x y : Entry,
    (entryLe x y || entryLe y x) = true := by
  intro x y
  rw [Bool.or_eq_true, entryLe, entryLe, decide_eq_true_iff, decide_eq_true_iff]
  exact le_total y.balance x.balance

theorem rankify_getElem? : ∀ (es : List Entry) (i j : ℕ),
    (rankify es i)[j]? = (es[j]?).map (fun e => { e with rank := i + j + 1 })
  | [], i, j => by simp [rankify]
  | e :: es, i, 0 => by simp [rankify]
  | e :: es, i, j + 1 => by
    simp only [rankify, List.getElem?_cons_succ]
    rw [rankify_getElem? es (i + 1) j]
    have : i + 1 + j + 1 = i + (j + 1) + 1 := by omega
    rw [this]

theorem rankify_length : ∀ (es : List Entry) (i : ℕ),
    (rankify es i).length = es.length
  | [], _ => rfl
  | e :: es, i => by
    simp only [rankify, List.length_cons, rankify_length es (i + 1)]

theorem rankify_mem : ∀ (es : List Entry) (i : ℕ) (e : Entry),
    e ∈ rankify es i → ∃ e₀ ∈ es, e.username = e₀.username ∧
      e.balance = e₀.balance ∧ e.wins = e₀.wins ∧ e.winRate = e₀.winRate
  | [], _, e => by simp [rankify]
  | q :: es, i, e => by
    intro he
    rcases List.mem_cons.mp he with h | h
    · subst h
      exact ⟨q, List.mem_cons_self q es, rfl, rfl, rfl, rfl⟩
    · obtain ⟨e₀, he₀, hf⟩ := rankify_mem es (i + 1) e h
      exact ⟨e₀, List.mem_cons_of_mem q he₀, hf⟩

theorem mergeSort_singleton (e : Entry) :
    List.mergeSort [e] entryLe = [e] :=
  List.perm_singleton.mp (List.mergeSort_perm [e] entryLe)

def rateEntry : Entry :=
  { username := "u", balance := 10000, wins := 1, winRate := 50, rank := 1 }

theorem leaderboard_stRate : leaderboard stRate = [rateEntry] := by
  rw [leaderboard]
  have hent : stRate.users.map (mkEntry stRate) =
      [{ username := "u", balance := 10000, wins := 1, winRate := 50,
         rank := 0 }] := by
    simp [stRate, mkUserW, mkEntry, netWorth, winRatePct, round_eq]
    norm_num
  rw [hent, mergeSort_singleton]
  simp [rankify, rateEntry]

/-- Claim C10: the leaderboard always has at most 100 entries; each
entry's rank is its 1-based index; entries are sorted by non-increasing
net worth (balance plus mark-to-market position value); every user is
either represented among the entries or outranked by all of them (top
100); and a `limit` parameter supplied by the caller has no effect. -/
theorem leaderboard_top100 (st : St) (lim₁ lim₂ : Option ℕ) :
    (leaderboard st).length ≤ 100 ∧
    (∀ (i : ℕ) (e : Entry), (leaderboard st)[i]? = some e →
      e.rank = i + 1) ∧
    (∀ (i j : ℕ) (ei ej : Entry), i ≤ j → (leaderboard st)[i]? = some ei →
      (leaderboard st)[j]? = some ej → ej.balance ≤ ei.balance) ∧
    (∀ u ∈ st.users, (∃ e ∈ leaderboard st, e.balance = netWorth st u) ∨
      (∀ e ∈ leaderboard st, netWorth st u ≤ e.balance)) ∧
    leaderboardRoute st lim₁ = leaderboardRoute st lim₂ := by
  have hsortedPW : ((st.users.map (mkEntry st)).mergeSort entryLe).Pairwise
      (fun x y => entryLe x y = true) :=
    List.sorted_mergeSort entryLe_trans entryLe_total _
  have hperm : ((st.users.map (mkEntry st)).mergeSort entryLe).Perm
      (st.users.map (mkEntry st)) :=
    List.mergeSort_perm _ entryLe
  have htakePW : (((st.users.map (mkEntry st)).mergeSort entryLe).take
      100).Pairwise (fun x y => entryLe x y = true) :=
    List.Pairwise.sublist (List.take_sublist _ _) hsortedPW
  refine ⟨?_, ?_, ?_, ?_, rfl⟩
  · rw [leaderboard, rankify_length, List.length_take]
    exact min_le_left _ _
  · intro i e h
    rw [leaderboard, rankify_getElem?] at h
    rcases Option.map_eq_some'.mp h with ⟨e₀, -, he⟩
    rw [← he]
    show 0 + i + 1 = i + 1
    omega
  · intro i j ei ej hij hi hj
    rw [leaderboard, rankify_getElem?] at hi hj
    rcases Option.map_eq_some'.mp hi with ⟨ei₀, hei₀, hei⟩
    rcases Option.map_eq_some'.mp hj with ⟨ej₀, hej₀, hej⟩
    rw [← hei, ← hej]
    rcases eq_or_lt_of_le hij with heq | hlt
    · subst heq
      rw [hei₀] at hej₀
      cases hej₀
      exact le_refl _
    · rcases List.getElem?_eq_some.mp hei₀ with ⟨hilt, hig⟩
      rcases List.getElem?_eq_some.mp hej₀ with ⟨hjlt, hjg⟩
      have hle := (List.pairwise_iff_get.mp htakePW) ⟨i, hilt⟩ ⟨j, hjlt⟩ hlt
      rw [List.get_eq_getElem, List.get_eq_getElem, hig, hjg, entryLe,
        decide_eq_true_iff] at hle
      exact hle
  · intro u hu
    have hmem : mkEntry st u ∈
        (st.users.map (mkEntry st)).mergeSort entryLe :=
      hperm.mem_iff.mpr (List.mem_map_of_mem _ hu)
    rw [← List.take_append_drop 100
      ((st.users.map (mkEntry st)).mergeSort entryLe)] at hmem
    rcases List.mem_append.mp hmem with hin | hout
    · left
      rcases List.mem_iff_getElem?.mp hin with ⟨i, hi⟩
      refine ⟨{ mkEntry st u with rank := 0 + i + 1 }, ?_, rfl⟩
      refine @mem_of_getElem?_eq _ _ i _ ?_
      rw [leaderboard, rankify_getElem?, hi, Option.map_some']
    · right
      intro e he
      obtain ⟨e₀, he₀, -, hbal, -, -⟩ := rankify_mem _ 0 e he
      have hPW := hsortedPW
      rw [← List.take_append_drop 100
        ((st.users.map (mkEntry st)).mergeSort entryLe),
        List.pairwise_append] at hPW
      have hle := hPW.2.2 e₀ he₀ (mkEntry st u) hout
      rw [entryLe, decide_eq_true_iff] at hle
      rw [hbal]
      exact hle

theorem leaderboard_top100_witness :
    (leaderboard stRate).length ≤ 100 ∧
    (∃ e, (leaderboard stRate)[0]? = some e ∧ e.rank = 0 + 1) ∧
    leaderboardRoute stRate (some 5) = leaderboardRoute stRate none := by
  have h := leaderboard_top100 stRate (some 5) none
  refine ⟨h.1, ?_, h.2.2.2.2⟩
  refine ⟨rateEntry, ?_, ?_⟩
  · rw [leaderboard_stRate]
    rfl
  · exact h.2.1 0 rateEntry (by rw [leaderboard_stRate]; rfl)

/-- Claim C9 as amended: every leaderboard entry's `winRate` equals the
rounded integer percentage `Math.round(wins / (wins + losses) * 100)`
when `wins + losses` is positive, else 0 — not the bare fraction
`wins / (wins + losses)` stated by the specification. -/
theorem winRate_is_rounded_percent (st : St) :
    ∀ e ∈ leaderboard st, ∃ u ∈ st.users,
      e.username = u.username ∧ e.wins = u.wins ∧
      e.winRate = (if 0 < u.wins + u.losses then
        ((round (((u.wins : ℚ) / ((u.wins : ℚ) + (u.losses : ℚ))) * 100) : ℤ) : ℚ)
        else 0) := by
  intro e he
  obtain ⟨e₀, he₀, hname, hbal, hwins, hrate⟩ := rankify_mem _ 0 e he
  have hmem : e₀ ∈ (st.users.map (mkEntry st)).mergeSort entryLe :=
    List.mem_of_mem_take he₀
  have hmem' : e₀ ∈ st.users.map (mkEntry st) :=
    (List.mergeSort_perm _ entryLe).mem_iff.mp hmem
  rcases List.mem_map.mp hmem' with ⟨u, hu, hue⟩
  refine ⟨u, hu, ?_, ?_, ?_⟩
  · rw [hname, ← hue]
    rfl
  · rw [hwins, ← hue]
    rfl
  · rw [hrate, ← hue]
    show winRatePct u.wins u.losses = _
    rw [winRatePct]

/-- Claim C9, counterexample to the stated equality: for a user with
one win and one loss the leaderboard annotates `winRate = 50`, which is
not the claimed `wins / (wins + losses) = 1/2`. -/
theorem winRate_percent_counterexample :
    (leaderboard stRate).map Entry.winRate = [50] ∧
    ((1 : ℚ) / (1 + 1)) ≠ 50 := by
  constructor
  · rw [leaderboard_stRate]
    rfl
  · norm_num

theorem winRate_is_rounded_percent_witness :
    ∃ u ∈ stRate.users, rateEntry.username = u.username ∧
      rateEntry.wins = u.wins ∧
      rateEntry.winRate = (if 0 < u.wins + u.losses then
        ((round (((u.wins : ℚ) / ((u.wins : ℚ) + (u.losses : ℚ))) * 100) : ℤ) : ℚ)
        else 0) :=
  winRate_is_rounded_percent stRate rateEntry
    (by rw [leaderboard_stRate]; exact List.mem_singleton_self _)

end PredictX
